import Mathlib

/-!
Verification of the frequent-itemset mining core (`src/algorithms/apriori.py`,
`src/algorithms/eclat.py`) against its specification.

Shallow embedding conventions:
* An item is an opaque, comparable, hashable token and a transaction identifier
  an opaque hashable token; the embedding is parametric over both (`α` with a
  linear order standing in for the items' comparable identity, `τ` with
  decidable equality), and concrete witnesses instantiate them with `ℕ`.
* A transaction's item set (`Set[str]` / `frozenset`) is a `Finset α`; a Python
  `dict` is an association list, whose keys are distinct — captured by a
  `keysNodup` hypothesis where a statement needs it.
* Python floats are modelled exactly as rationals `ℚ` (all arithmetic in the
  source is counting followed by a single division, so the rational model is
  exact and "equal up to floating-point tolerance" becomes equality).
* Iteration over a Python `set` / `dict` happens in an unspecified (hash
  dependent) order; the embedding fixes a canonical order (`sortItems`).  All
  verified statements are about map contents (sets of key/value pairs, lookups,
  sizes), which do not depend on that order.
-/

attribute [local semireducible] Rat.add Rat.sub Rat.mul Rat.inv

namespace AssociationMining

variable {α : Type} [LinearOrder α] {τ : Type} [DecidableEq τ]

/-- A transaction database, mirroring `TransactionDB = Dict[str, Set[str]]`:
an association list from transaction identifier to the transaction's item set. -/
abbrev TransactionDB (τ α : Type) := List (τ × Finset α)

/-- A frequent-itemset result map, mirroring `Dict[Itemset, float]`:
an association list from itemset to its (relative) support. -/
abbrev FrequentMap (α : Type) := List (Finset α × ℚ)

/-- The keys of a Python `dict` are pairwise distinct. -/
def keysNodup (db : TransactionDB τ α) : Prop := (db.map Prod.fst).Nodup

instance (db : TransactionDB τ α) : Decidable (keysNodup db) :=
  List.nodupDecidable _

/-- Enumerate a finite set as a duplicate-free list.  Python iterates a `set`
in an unspecified hash-dependent order; the embedding uses the sorted order
(via the kernel-reducible `insertionSort`). -/
def sortItems (s : Finset α) : List α :=
  Quot.liftOn s.val (fun l => l.insertionSort (· ≤ ·)) fun l₁ l₂ h =>
    List.eq_of_perm_of_sorted
      ((l₁.perm_insertionSort (· ≤ ·)).trans
        (List.Perm.trans h (l₂.perm_insertionSort (· ≤ ·)).symm))
      (l₁.sorted_insertionSort (· ≤ ·)) (l₂.sorted_insertionSort (· ≤ ·))

/-- Number of transactions whose item set is a superset of `I`.  This is the
count computed by the per-level scan in `apriori` (`c.issubset(items)`), and for
singletons it coincides with the incremental `item_counts` tally. -/
def countT (db : TransactionDB τ α) (I : Finset α) : ℕ :=
  db.countP fun p => decide (I ⊆ p.2)

/-- Relative support `count / n_trans` of an itemset. -/
def supportOf (db : TransactionDB τ α) (I : Finset α) : ℚ :=
  (countT db I : ℚ) / db.length

/-- All items occurring in the database, as a list without duplicates
(Python enumerates them in hash order while filling `item_counts`; the order is
irrelevant to every verified statement, so the embedding fixes a canonical one). -/
def all_items_list (db : TransactionDB τ α) : List α :=
  (db.flatMap fun p => sortItems p.2).dedup

/-- All items occurring in the database, as a finite set. -/
def allItemsF (db : TransactionDB τ α) : Finset α :=
  (all_items_list db).toFinset

/-- Content of the `item_counts` dictionary built by `apriori`: each occurring
item together with the number of transactions containing it (each transaction's
items form a set, so a transaction contributes at most 1 to each count). -/
def item_counts (db : TransactionDB τ α) : List (α × ℕ) :=
  (all_items_list db).map fun i => (i, countT db {i})

/-- The `L1` pass of `apriori`: for each counted item, `sup = count / n_trans`;
items with `sup >= min_support` enter the result with that support. -/
def apriori_L1 (db : TransactionDB τ α) (s : ℚ) : FrequentMap α :=
  (item_counts db).filterMap fun ic =>
    let sup : ℚ := (ic.2 : ℚ) / db.length
    if s ≤ sup then some ({ic.1}, sup) else none

/-- The unions `prev[i] | prev[j]` over index pairs `i < j`, written via
suffixes: for every suffix `A :: rest` of `prev`, pair `A` with each member of
`rest` (exactly the `i < j` index pairs of the Python double loop). -/
def candidate_pairs (prev : List (Finset α)) : List (Finset α) :=
  prev.tails.flatMap fun t =>
    match t with
    | [] => []
    | A :: rest => rest.map fun B => A ∪ B

/-- `_generate_candidates`: keep the pairwise unions of exactly `k` items all of
whose `(k-1)`-subsets are frequent; the Python `set` accumulator makes the
result duplicate-free (`dedup`).  When `|u| = k` the `(k-1)`-subsets enumerated
by `combinations(union, k - 1)` are exactly the sets `u.erase x` for `x ∈ u`. -/
def generate_candidates (prev : List (Finset α)) (k : ℕ) : List (Finset α) :=
  ((candidate_pairs prev).filter fun u =>
    decide (u.card = k) && decide (∀ x ∈ u, u.erase x ∈ prev)).dedup

/-- The `while Lk:` loop of `apriori` for levels `k ≥ 2`.  The loop provably
runs for at most `|all items|` rounds (every level-`k` set has exactly `k`
items drawn from the occurring items), so it is modelled with a fuel parameter
that `apriori` instantiates large enough; `apriori_loop_spec` characterises the
output independently of the fuel. -/
def apriori_loop (db : TransactionDB τ α) (s : ℚ) :
    ℕ → ℕ → List (Finset α) → FrequentMap α
  | 0, _, _ => []
  | fuel + 1, k, Lk =>
    if Lk = [] then []
    else
      let Ck := generate_candidates Lk k
      let newPairs := (Ck.map fun c => (c, (countT db c : ℚ) / db.length)).filter
        fun p => decide (s ≤ p.2)
      newPairs ++ apriori_loop db s fuel (k + 1) (newPairs.map Prod.fst)

/-- `apriori`: the `L1` pass followed by the levelwise loop starting at `k = 2`
with `Lk` the frequent 1-itemsets.  The result models the `frequents`
dictionary; the separately returned elapsed time is modelled by
`apriori_timed`. -/
def apriori (db : TransactionDB τ α) (s : ℚ) : FrequentMap α :=
  let L1 := apriori_L1 db s
  L1 ++ apriori_loop db s ((all_items_list db).length + 2) 2 (L1.map Prod.fst)

/-- The TID-set of an itemset: identifiers of the transactions containing it. -/
def tidsOf (db : TransactionDB τ α) (I : Finset α) : Finset τ :=
  ((db.filter fun p => decide (I ⊆ p.2)).map Prod.fst).toFinset

/-- `build_vertical_representation`: each occurring item mapped to the set of
transaction ids whose transaction contains it. -/
def build_vertical_representation (db : TransactionDB τ α) : List (α × Finset τ) :=
  (all_items_list db).map fun i => (i, tidsOf db {i})

/-- `max(1, math.ceil(min_support * n_trans))`. -/
def min_sup_count (s : ℚ) (n : ℕ) : ℕ :=
  (max 1 ⌈s * (n : ℚ)⌉).toNat

/-- `_eclat_recursive`.  The Python `while` loop pops the LAST `(item, tids)`
pair, records `prefix | {item}` when `len(tids) >= min_support_count`, builds
the pruned intersection list from the remaining pairs, recurses into it, and
continues the loop on the remaining pairs; `results` collects insertions in
exactly that order.  The recursion (on ever-shorter lists) is modelled with a
fuel parameter that `eclat` instantiates with the initial list length, which is
provably sufficient (every inner list is strictly shorter). -/
def eclat_recursive : ℕ → Finset α → List (α × Finset τ) → ℕ → ℕ → FrequentMap α
  | 0, _, _, _, _ => []
  | fuel + 1, pfx, items_tids, c, n =>
    match items_tids.getLast? with
    | none => []
    | some (item, tids) =>
      let rest := items_tids.dropLast
      let new_itemset := pfx ∪ {item}
      if c ≤ tids.card then
        let new_items_tids := rest.filterMap fun q =>
          let inter := tids ∩ q.2
          if c ≤ inter.card then some (q.1, inter) else none
        (new_itemset, (tids.card : ℚ) / n) ::
          eclat_recursive fuel new_itemset new_items_tids c n ++
            eclat_recursive fuel pfx rest c n
      else
        eclat_recursive fuel pfx rest c n

/-- `eclat`: build the vertical representation, compute the absolute support
threshold, and run the depth-first search from the empty itemset over all
`(item, tids)` pairs.  The result models the `results` dictionary; the elapsed
time is modelled by `eclat_timed`. -/
def eclat (db : TransactionDB τ α) (s : ℚ) : FrequentMap α :=
  let vertical := build_vertical_representation db
  let c := min_sup_count s db.length
  eclat_recursive vertical.length ∅ vertical c db.length

/-- An association rule record, mirroring the dictionaries produced by
`generate_association_rules`. -/
structure Rule (α : Type) where
  antecedent : Finset α
  consequent : Finset α
  support : ℚ
  confidence : ℚ
  lift : ℚ
deriving DecidableEq

/-- `frequent_itemsets.get(X, 0.0)`: the support stored for `X`, or `0`. -/
def fmGet (m : FrequentMap α) (I : Finset α) : ℚ :=
  ((m.find? fun p => decide (p.1 = I)).map Prod.snd).getD 0

/-- `generate_association_rules`.  For each stored itemset of size at least 2,
every non-empty proper subset (Python: `combinations(items, r)` for
`r = 1 .. len(items) - 1`, each subset produced exactly once) is tried as an
antecedent; the sublists of the duplicate-free item list enumerate exactly
those subsets.  Splits whose antecedent or consequent support looks up as `0`
are skipped; otherwise the rule is emitted when `conf >= min_confidence`. -/
def generate_association_rules (m : FrequentMap α) (min_confidence : ℚ) :
    List (Rule α) :=
  m.flatMap fun p =>
    if p.1.card < 2 then []
    else
      let items := sortItems p.1
      (items.sublists.filter fun a =>
        decide (a ≠ []) && decide (a.length < items.length)).flatMap fun ant =>
          let antecedent := ant.toFinset
          let consequent := p.1 \ antecedent
          let sup_x := fmGet m antecedent
          let sup_y := fmGet m consequent
          if sup_x = 0 ∨ sup_y = 0 then []
          else
            let conf := p.2 / sup_x
            if min_confidence ≤ conf then
              [⟨antecedent, consequent, p.2, conf, conf / sup_y⟩]
            else []

/-- `apriori` together with its reported elapsed time
(`start = time.time()` on entry, `time.time() - start` on exit): the clock
readings at entry and exit are explicit inputs of the model. -/
def apriori_timed (db : TransactionDB τ α) (s t_start t_end : ℚ) :
    FrequentMap α × ℚ :=
  (apriori db s, t_end - t_start)

/-- `eclat` together with its reported elapsed time; as for `apriori_timed`. -/
def eclat_timed (db : TransactionDB τ α) (s t_start t_end : ℚ) :
    FrequentMap α × ℚ :=
  (eclat db s, t_end - t_start)

/-- Specification-side set of frequent itemsets for a relative threshold:
non-empty sets of occurring items whose support reaches `s`. -/
def frequentSets (db : TransactionDB τ α) (s : ℚ) : Finset (Finset α) :=
  (allItemsF db).powerset.filter fun I => I ≠ ∅ ∧ s ≤ supportOf db I

/-- Specification-side set of frequent itemsets for an absolute count
threshold `c`. -/
def frequentSetsAbs (db : TransactionDB τ α) (c : ℕ) : Finset (Finset α) :=
  (allItemsF db).powerset.filter fun I => I ≠ ∅ ∧ c ≤ countT db I

/-- Specification-side result map (as a set of pairs) for a relative
threshold. -/
def specResult (db : TransactionDB τ α) (s : ℚ) : Finset (Finset α × ℚ) :=
  (frequentSets db s).image fun I => (I, supportOf db I)

/-- Specification-side result map (as a set of pairs) for an absolute count
threshold. -/
def specResultAbs (db : TransactionDB τ α) (c : ℕ) : Finset (Finset α × ℚ) :=
  (frequentSetsAbs db c).image fun I => (I, supportOf db I)

/-- Specification-side level set: the frequent itemsets of exactly `k` items. -/
def frequentK (db : TransactionDB τ α) (s : ℚ) (k : ℕ) : Finset (Finset α) :=
  (allItemsF db).powerset.filter fun I => I.card = k ∧ s ≤ supportOf db I

/-- Concrete database `{1: {10, 20}, 2: {10, 30}}` (two transactions sharing
item `10`) used for counterexamples and witnesses. -/
def db2 : TransactionDB ℕ ℕ := [(1, {10, 20}), (2, {10, 30})]

/-- Concrete one-transaction database `{1: {10}}`. -/
def db1 : TransactionDB ℕ ℕ := [(1, {10})]

/-- The support threshold `3/5` and scenario map used in rule-generation
witnesses: the spec's concrete scenario (supports `3/4, 3/4, 1/2, 1/2`). -/
def mScenario : FrequentMap ℕ :=
  [({10, 20}, 1/2), ({10}, 3/4), ({20}, 3/4), ({30}, 1/2)]

/-- A caller-supplied map violating downward closure: the pair `{10, 20}` has
larger support than its subsets. -/
def mBad : FrequentMap ℕ :=
  [({10, 20}, 4/5), ({10}, 2/5), ({20}, 2/5)]

/-- The rule `{10} -> {20}` produced from `mScenario` at confidence `3/5`
(confidence `(1/2)/(3/4) = 2/3`, lift `(2/3)/(3/4) = 8/9`). -/
def rule0 : Rule ℕ :=
  ⟨{10}, {20}, 1/2, 2/3, 8/9⟩

section SortItemsLemmas

lemma coe_sortItems (s : Finset α) : (↑(sortItems s) : Multiset α) = s.val := by
  rcases s with ⟨m, hm⟩
  induction m using Quotient.inductionOn with
  | h l => exact Multiset.coe_eq_coe.mpr (List.perm_insertionSort _ l)

lemma mem_sortItems {s : Finset α} {x : α} : x ∈ sortItems s ↔ x ∈ s := by
  rw [← Multiset.mem_coe, coe_sortItems]
  rfl

lemma nodup_sortItems (s : Finset α) : (sortItems s).Nodup :=
  Multiset.coe_nodup.mp ((coe_sortItems s).symm ▸ s.nodup)

lemma length_sortItems (s : Finset α) : (sortItems s).length = s.card := by
  have := congrArg Multiset.card (coe_sortItems s)
  simpa using this

lemma toFinset_sortItems (s : Finset α) : (sortItems s).toFinset = s := by
  ext x
  simp [List.mem_toFinset, mem_sortItems]

end SortItemsLemmas

section CountLemmas

lemma countT_anti (db : TransactionDB τ α) {I J : Finset α} (h : I ⊆ J) :
    countT db J ≤ countT db I := by
  refine List.countP_mono_left fun p _ hq => ?_
  simp only [decide_eq_true_eq] at *
  exact h.trans hq

lemma countT_le_length (db : TransactionDB τ α) (I : Finset α) :
    countT db I ≤ db.length :=
  List.countP_le_length _

lemma supportOf_nonneg (db : TransactionDB τ α) (I : Finset α) :
    0 ≤ supportOf db I :=
  div_nonneg (Nat.cast_nonneg _) (Nat.cast_nonneg _)

lemma supportOf_le_one (db : TransactionDB τ α) (I : Finset α) :
    supportOf db I ≤ 1 := by
  rcases Nat.eq_zero_or_pos db.length with h | h
  · simp [supportOf, h]
  · rw [supportOf, div_le_one (by exact_mod_cast h)]
    exact_mod_cast countT_le_length db I

lemma supportOf_anti (db : TransactionDB τ α) {I J : Finset α} (h : I ⊆ J) :
    supportOf db J ≤ supportOf db I := by
  rcases Nat.eq_zero_or_pos db.length with h0 | h0
  · simp [supportOf, h0]
  · rw [supportOf, supportOf,
      div_le_div_right (by exact_mod_cast h0 : (0 : ℚ) < (db.length : ℚ))]
    exact_mod_cast countT_anti db h

lemma mem_all_items_list {db : TransactionDB τ α} {i : α} :
    i ∈ all_items_list db ↔ ∃ p ∈ db, i ∈ p.2 := by
  simp [all_items_list, List.mem_dedup, List.mem_flatMap, mem_sortItems]

lemma nodup_all_items_list (db : TransactionDB τ α) : (all_items_list db).Nodup :=
  List.nodup_dedup _

lemma mem_allItemsF {db : TransactionDB τ α} {i : α} :
    i ∈ allItemsF db ↔ ∃ p ∈ db, i ∈ p.2 := by
  simp [allItemsF, List.mem_toFinset, mem_all_items_list]

lemma length_all_items_list (db : TransactionDB τ α) :
    (all_items_list db).length = (allItemsF db).card :=
  (List.toFinset_card_of_nodup (nodup_all_items_list db)).symm

lemma subset_allItemsF_of_countT_pos {db : TransactionDB τ α} {I : Finset α}
    (h : 0 < countT db I) : I ⊆ allItemsF db := by
  rw [countT, List.countP_pos_iff] at h
  rcases h with ⟨p, hp, hsub⟩
  simp only [decide_eq_true_eq] at hsub
  intro x hx
  exact mem_allItemsF.mpr ⟨p, hp, hsub hx⟩

end CountLemmas

section TidsLemmas

variable {β γ : Type}

lemma key_unique {l : List (β × γ)} (h : (l.map Prod.fst).Nodup) :
    ∀ p ∈ l, ∀ q ∈ l, p.1 = q.1 → p = q := by
  induction l with
  | nil => simp
  | cons a l ih =>
    simp only [List.map_cons, List.nodup_cons] at h
    obtain ⟨h1, h2⟩ := h
    rintro p hp q hq hpq
    rcases List.mem_cons.mp hp with hpa | hp
    · rcases List.mem_cons.mp hq with hqa | hq
      · rw [hpa, hqa]
      · rw [← hpa, hpq] at h1
        exact absurd (List.mem_map_of_mem Prod.fst hq) h1
    · rcases List.mem_cons.mp hq with hqa | hq
      · rw [← hqa, ← hpq] at h1
        exact absurd (List.mem_map_of_mem Prod.fst hp) h1
      · exact ih h2 p hp q hq hpq

lemma mem_tidsOf {db : TransactionDB τ α} {I : Finset α} {t : τ} :
    t ∈ tidsOf db I ↔ ∃ p ∈ db, p.1 = t ∧ I ⊆ p.2 := by
  simp only [tidsOf, List.mem_toFinset, List.mem_map, List.mem_filter,
    decide_eq_true_eq]
  constructor
  · rintro ⟨p, ⟨hp, hs⟩, rfl⟩
    exact ⟨p, hp, rfl, hs⟩
  · rintro ⟨p, hp, rfl, hs⟩
    exact ⟨p, ⟨hp, hs⟩, rfl⟩

lemma tidsOf_anti (db : TransactionDB τ α) {I J : Finset α} (h : I ⊆ J) :
    tidsOf db J ⊆ tidsOf db I := by
  intro t ht
  rcases mem_tidsOf.mp ht with ⟨p, hp, rfl, hs⟩
  exact mem_tidsOf.mpr ⟨p, hp, rfl, h.trans hs⟩

lemma tidsOf_inter {db : TransactionDB τ α} (hnd : keysNodup db) (I J : Finset α) :
    tidsOf db I ∩ tidsOf db J = tidsOf db (I ∪ J) := by
  ext t
  simp only [Finset.mem_inter, mem_tidsOf]
  constructor
  · rintro ⟨⟨p, hp, rfl, hIp⟩, ⟨q, hq, hqt, hJq⟩⟩
    have hpq : q = p := key_unique hnd q hq p hp hqt
    subst hpq
    exact ⟨q, hq, rfl, Finset.union_subset hIp hJq⟩
  · rintro ⟨p, hp, rfl, hIJ⟩
    exact ⟨⟨p, hp, rfl, Finset.subset_union_left.trans hIJ⟩,
      ⟨p, hp, rfl, Finset.subset_union_right.trans hIJ⟩⟩

lemma card_tidsOf {db : TransactionDB τ α} (hnd : keysNodup db) (I : Finset α) :
    (tidsOf db I).card = countT db I := by
  have h1 : ((db.filter fun p => decide (I ⊆ p.2)).map Prod.fst).Nodup :=
    List.Nodup.sublist (List.Sublist.map _ (List.filter_sublist _)) hnd
  rw [tidsOf, List.toFinset_card_of_nodup h1, List.length_map, countT,
    List.countP_eq_length_filter]

end TidsLemmas

section FmGetLemmas

lemma fmGet_entry {m : FrequentMap α} {I : Finset α} (h : fmGet m I ≠ 0) :
    ∃ p ∈ m, p.1 = I ∧ fmGet m I = p.2 := by
  rw [fmGet] at h ⊢
  cases hf : m.find? fun p => decide (p.1 = I) with
  | none => rw [hf] at h; simp at h
  | some p =>
    have hp := List.mem_of_find?_eq_some hf
    have hkey := List.find?_some hf
    simp only [decide_eq_true_eq] at hkey
    exact ⟨p, hp, hkey, rfl⟩

lemma fmGet_nonneg {m : FrequentMap α} (hm : ∀ p ∈ m, 0 ≤ p.2) (I : Finset α) :
    0 ≤ fmGet m I := by
  rw [fmGet]
  cases hf : m.find? fun p => decide (p.1 = I) with
  | none => simp
  | some p => simpa using hm p (List.mem_of_find?_eq_some hf)

end FmGetLemmas

section RuleGenLemmas

lemma flatMap_sublist {β γ : Type} {l : List β} {f g : β → List γ}
    (h : ∀ a ∈ l, List.Sublist (f a) (g a)) :
    List.Sublist (l.flatMap f) (l.flatMap g) := by
  induction l with
  | nil => simp
  | cons a l ih =>
    simp only [List.flatMap_cons]
    exact (h a (List.mem_cons_self a l)).append
      (ih fun b hb => h b (List.mem_cons_of_mem a hb))

lemma flatMap_congr {β γ : Type} {l : List β} {f g : β → List γ}
    (h : ∀ a ∈ l, f a = g a) : l.flatMap f = l.flatMap g := by
  induction l with
  | nil => simp
  | cons a l ih =>
    simp only [List.flatMap_cons]
    rw [h a (List.mem_cons_self a l), ih fun b hb => h b (List.mem_cons_of_mem a hb)]

/-- Elimination form of membership in `generate_association_rules`: every
emitted rule comes from a stored itemset `p.1` of size at least 2 and a
non-empty proper subset `A` whose guard and confidence tests passed. -/
lemma gar_mem_elim {m : FrequentMap α} {c : ℚ} {r : Rule α}
    (hr : r ∈ generate_association_rules m c) :
    ∃ p ∈ m, 2 ≤ p.1.card ∧ ∃ A : Finset α, A ⊆ p.1 ∧ A ≠ ∅ ∧ A ≠ p.1 ∧
      fmGet m A ≠ 0 ∧ fmGet m (p.1 \ A) ≠ 0 ∧ c ≤ p.2 / fmGet m A ∧
      r = ⟨A, p.1 \ A, p.2, p.2 / fmGet m A, p.2 / fmGet m A / fmGet m (p.1 \ A)⟩ := by
  rw [generate_association_rules, List.mem_flatMap] at hr
  obtain ⟨p, hp, hrp⟩ := hr
  by_cases hcard : p.1.card < 2
  · rw [if_pos hcard] at hrp
    simp at hrp
  · rw [if_neg hcard, List.mem_flatMap] at hrp
    obtain ⟨ant, hant, hrant⟩ := hrp
    rw [List.mem_filter] at hant
    obtain ⟨hsub, hcond⟩ := hant
    simp only [Bool.and_eq_true, decide_eq_true_eq] at hcond
    obtain ⟨hne, hlen⟩ := hcond
    rw [List.mem_sublists] at hsub
    have hant_nodup : ant.Nodup := (nodup_sortItems p.1).sublist hsub
    have hAsub : ant.toFinset ⊆ p.1 := by
      intro x hx
      exact mem_sortItems.mp (hsub.subset (List.mem_toFinset.mp hx))
    have hAne : ant.toFinset ≠ ∅ := by
      simpa [List.toFinset_eq_empty_iff] using hne
    have hAnefull : ant.toFinset ≠ p.1 := by
      intro hfull
      have hc1 : ant.toFinset.card = ant.length := List.toFinset_card_of_nodup hant_nodup
      have hc2 : (sortItems p.1).length = p.1.card := length_sortItems p.1
      rw [hfull, ← hc2] at hc1
      omega
    by_cases hzero : fmGet m ant.toFinset = 0 ∨ fmGet m (p.1 \ ant.toFinset) = 0
    · rw [if_pos hzero] at hrant
      simp at hrant
    · rw [if_neg hzero] at hrant
      push_neg at hzero
      by_cases hconf : c ≤ p.2 / fmGet m ant.toFinset
      · rw [if_pos hconf, List.mem_singleton] at hrant
        exact ⟨p, hp, by omega, ant.toFinset, hAsub, hAne, hAnefull,
          hzero.1, hzero.2, hconf, hrant⟩
      · rw [if_neg hconf] at hrant
        simp at hrant

/-- Raising `min_confidence` only removes rules: the rule list at the higher
threshold is a sublist of the one at the lower threshold. -/
lemma gar_anti (m : FrequentMap α) {c c' : ℚ} (h : c ≤ c') :
    List.Sublist (generate_association_rules m c') (generate_association_rules m c) := by
  rw [generate_association_rules, generate_association_rules]
  refine flatMap_sublist fun p hp => ?_
  by_cases hcard : p.1.card < 2
  · rw [if_pos hcard, if_pos hcard]
  · rw [if_neg hcard, if_neg hcard]
    refine flatMap_sublist fun ant hant => ?_
    by_cases hzero : fmGet m ant.toFinset = 0 ∨ fmGet m (p.1 \ ant.toFinset) = 0
    · rw [if_pos hzero, if_pos hzero]
    · rw [if_neg hzero, if_neg hzero]
      by_cases hconf : c' ≤ p.2 / fmGet m ant.toFinset
      · rw [if_pos hconf, if_pos (le_trans h hconf)]
      · rw [if_neg hconf]
        exact List.nil_sublist _

/-- `generate_association_rules` with a negative threshold behaves like
threshold `0` on maps with non-negative supports (every computed confidence is
non-negative, so both thresholds accept the same splits). -/
lemma gar_neg_eq_zero (m : FrequentMap α) {c : ℚ} (hc : c ≤ 0)
    (hm : ∀ p ∈ m, 0 ≤ p.2) :
    generate_association_rules m c = generate_association_rules m 0 := by
  rw [generate_association_rules, generate_association_rules]
  refine flatMap_congr fun p hp => ?_
  by_cases hcard : p.1.card < 2
  · rw [if_pos hcard, if_pos hcard]
  · rw [if_neg hcard, if_neg hcard]
    refine flatMap_congr fun ant hant => ?_
    by_cases hzero : fmGet m ant.toFinset = 0 ∨ fmGet m (p.1 \ ant.toFinset) = 0
    · rw [if_pos hzero, if_pos hzero]
    · rw [if_neg hzero, if_neg hzero]
      have hconf : (0 : ℚ) ≤ p.2 / fmGet m ant.toFinset :=
        div_nonneg (hm p hp) (fmGet_nonneg hm ant.toFinset)
      rw [if_pos (le_trans hc hconf), if_pos hconf]

end RuleGenLemmas

/-- C10: for every input result map with non-negative supports and every
`min_confidence`, each emitted rule's antecedent and consequent are keys of the
input map whose looked-up supports are non-zero (indeed strictly positive) —
the guard runs before the divisions, so the confidence division by `sup_x` and
the lift division by `sup_y` are by non-zero values, and the function is total. -/
theorem c10_division_guard {m : FrequentMap α} (hm : ∀ p ∈ m, 0 ≤ p.2)
    (c : ℚ) (r : Rule α) (hr : r ∈ generate_association_rules m c) :
    (∃ p ∈ m, p.1 = r.antecedent) ∧ 0 < fmGet m r.antecedent ∧
    (∃ p ∈ m, p.1 = r.consequent) ∧ 0 < fmGet m r.consequent ∧
    fmGet m r.antecedent ≠ 0 ∧ fmGet m r.consequent ≠ 0 ∧
    r.confidence = r.support / fmGet m r.antecedent ∧
    r.lift = r.confidence / fmGet m r.consequent := by
  obtain ⟨p, hp, hcard, A, hAsub, hAne, hAnefull, hx, hy, hconf, rfl⟩ := gar_mem_elim hr
  obtain ⟨px, hpx, hpxA, hgx⟩ := fmGet_entry hx
  obtain ⟨py, hpy, hpyC, hgy⟩ := fmGet_entry hy
  exact ⟨⟨px, hpx, hpxA⟩, lt_of_le_of_ne (fmGet_nonneg hm A) (Ne.symm hx),
    ⟨py, hpy, hpyC⟩, lt_of_le_of_ne (fmGet_nonneg hm _) (Ne.symm hy),
    hx, hy, rfl, rfl⟩

/-- C10 witness: the guard facts instantiated at the spec's concrete scenario
map and its rule `{10} -> {20}`. -/
theorem c10_witness :
    0 < fmGet mScenario rule0.antecedent ∧ fmGet mScenario rule0.consequent ≠ 0 ∧
    rule0.confidence = rule0.support / fmGet mScenario rule0.antecedent := by
  have h := c10_division_guard (m := mScenario) (by decide) (3/5) rule0 (by decide)
  exact ⟨h.2.1, h.2.2.2.2.2.1, h.2.2.2.2.2.2.1⟩

/-- C5 counterexample: for the caller-supplied map `mBad` (which violates
downward closure) at `min_confidence = 0`, a rule with confidence `2 > 1` is
returned, so the claim that every returned rule has confidence in `(0, 1]` for
every input result map is false. -/
theorem c5_counterexample :
    ∃ r ∈ generate_association_rules mBad 0,
      ¬ (0 < r.confidence ∧ r.confidence ≤ 1) := by decide

/-- C5 (amended): for every input result map whose supports lie in `(0, 1]` and
which satisfies the downward-closure property (any stored subset of a stored
itemset has support at least as large), every returned rule has a non-empty
antecedent and consequent with empty intersection, their union is a key of the
input map, its confidence lies in `(0, 1]`, and its lift is non-negative. -/
theorem c5_rule_wellformed {m : FrequentMap α}
    (hpos : ∀ p ∈ m, 0 < p.2 ∧ p.2 ≤ 1)
    (hdc : ∀ p ∈ m, ∀ q ∈ m, q.1 ⊆ p.1 → p.2 ≤ q.2)
    (c : ℚ) (r : Rule α) (hr : r ∈ generate_association_rules m c) :
    r.antecedent ≠ ∅ ∧ r.consequent ≠ ∅ ∧ r.antecedent ∩ r.consequent = ∅ ∧
    (∃ p ∈ m, p.1 = r.antecedent ∪ r.consequent) ∧
    0 < r.confidence ∧ r.confidence ≤ 1 ∧ 0 ≤ r.lift := by
  obtain ⟨p, hp, hcard, A, hAsub, hAne, hAnefull, hx, hy, hconf, rfl⟩ := gar_mem_elim hr
  obtain ⟨px, hpx, hpxA, hgx⟩ := fmGet_entry hx
  obtain ⟨py, hpy, hpyC, hgy⟩ := fmGet_entry hy
  have hxpos : 0 < fmGet m A := by
    rw [hgx]
    exact (hpos px hpx).1
  have hypos : 0 < fmGet m (p.1 \ A) := by
    rw [hgy]
    exact (hpos py hpy).1
  have hconsne : p.1 \ A ≠ ∅ := by
    intro hempty
    exact hAnefull (Finset.Subset.antisymm hAsub
      (Finset.sdiff_eq_empty_iff_subset.mp hempty))
  have hconfpos : 0 < p.2 / fmGet m A := div_pos (hpos p hp).1 hxpos
  have hconfle : p.2 / fmGet m A ≤ 1 := by
    rw [div_le_one hxpos, hgx]
    exact hdc p hp px hpx (hpxA.symm ▸ hAsub)
  refine ⟨hAne, hconsne, Finset.inter_sdiff_self A p.1, ⟨p, hp, ?_⟩,
    hconfpos, hconfle, le_of_lt (div_pos hconfpos hypos)⟩
  exact (Finset.union_sdiff_of_subset hAsub).symm

/-- C5 witness: the well-formedness facts instantiated at the spec's concrete
scenario map and its rule `{10} -> {20}`. -/
theorem c5_witness :
    rule0.antecedent ≠ ∅ ∧ rule0.consequent ≠ ∅ ∧
    rule0.antecedent ∩ rule0.consequent = ∅ ∧
    (∃ p ∈ mScenario, p.1 = rule0.antecedent ∪ rule0.consequent) ∧
    0 < rule0.confidence ∧ rule0.confidence ≤ 1 ∧ 0 ≤ rule0.lift :=
  c5_rule_wellformed (m := mScenario) (by decide) (by decide) (3/5) rule0 (by decide)

section AprioriSpec

lemma erase_union_erase_of_ne {I : Finset α} {x y : α} (hx : x ∈ I) (hy : y ∈ I)
    (hxy : x ≠ y) : I.erase x ∪ I.erase y = I := by
  ext z
  simp only [Finset.mem_union, Finset.mem_erase]
  constructor
  · rintro (⟨_, hz⟩ | ⟨_, hz⟩) <;> assumption
  · intro hz
    rcases eq_or_ne z x with rfl | hne
    · exact Or.inr ⟨hxy, hz⟩
    · exact Or.inl ⟨hne, hz⟩

lemma erase_ne_erase {I : Finset α} {x y : α} (hx : x ∈ I) (hxy : x ≠ y) :
    I.erase x ≠ I.erase y := by
  intro h
  have hxy' : x ∈ I.erase y := Finset.mem_erase.mpr ⟨hxy, hx⟩
  rw [← h] at hxy'
  exact (Finset.mem_erase.mp hxy').1 rfl

lemma toFinset_map_list {β γ : Type} [DecidableEq β] [DecidableEq γ] (f : β → γ)
    (l : List β) : (l.map f).toFinset = l.toFinset.image f := by
  ext x
  simp [List.mem_toFinset, List.mem_map, Finset.mem_image]

lemma mem_candidate_pairs_elim {prev : List (Finset α)} {u : Finset α}
    (hu : u ∈ candidate_pairs prev) :
    ∃ A ∈ prev, ∃ B ∈ prev, u = A ∪ B := by
  rw [candidate_pairs, List.mem_flatMap] at hu
  obtain ⟨t, ht, hut⟩ := hu
  rw [List.mem_tails] at ht
  cases t with
  | nil => simp at hut
  | cons A rest =>
    rw [List.mem_map] at hut
    obtain ⟨B, hB, rfl⟩ := hut
    exact ⟨A, ht.subset (List.mem_cons_self _ _), B,
      ht.subset (List.mem_cons_of_mem _ hB), rfl⟩

lemma mem_candidate_pairs_of_suffix {prev l2 : List (Finset α)} {A B : Finset α}
    (hsuf : List.IsSuffix (A :: l2) prev) (hB : B ∈ l2) :
    A ∪ B ∈ candidate_pairs prev := by
  rw [candidate_pairs, List.mem_flatMap]
  refine ⟨A :: l2, (List.mem_tails _ _).mpr hsuf, ?_⟩
  exact List.mem_map.mpr ⟨B, hB, rfl⟩

lemma mem_candidate_pairs_intro {prev : List (Finset α)} {A B : Finset α}
    (hA : A ∈ prev) (hB : B ∈ prev) (hAB : A ≠ B) :
    A ∪ B ∈ candidate_pairs prev := by
  obtain ⟨s1, t1, rfl⟩ := List.append_of_mem hA
  rcases List.mem_append.mp hB with hB1 | hB1
  · obtain ⟨s2, t2, rfl⟩ := List.append_of_mem hB1
    have hsuf : List.IsSuffix (B :: (t2 ++ A :: t1)) ((s2 ++ B :: t2) ++ A :: t1) := by
      have : (s2 ++ B :: t2) ++ A :: t1 = s2 ++ (B :: (t2 ++ A :: t1)) := by
        simp [List.append_assoc]
      rw [this]
      exact List.suffix_append s2 _
    rw [Finset.union_comm]
    exact mem_candidate_pairs_of_suffix hsuf
      (List.mem_append.mpr (Or.inr (List.mem_cons_self _ _)))
  · rcases List.mem_cons.mp hB1 with hBA | hB2
    · exact absurd hBA.symm hAB
    · exact mem_candidate_pairs_of_suffix (List.suffix_append s1 _) hB2

lemma mem_generate_candidates {prev : List (Finset α)} {k : ℕ} {u : Finset α} :
    u ∈ generate_candidates prev k ↔
      u ∈ candidate_pairs prev ∧ u.card = k ∧ ∀ x ∈ u, u.erase x ∈ prev := by
  rw [generate_candidates, List.mem_dedup, List.mem_filter]
  simp only [Bool.and_eq_true, decide_eq_true_eq, and_assoc]

lemma mem_frequentK {db : TransactionDB τ α} {s : ℚ} {k : ℕ} {I : Finset α} :
    I ∈ frequentK db s k ↔ I ⊆ allItemsF db ∧ I.card = k ∧ s ≤ supportOf db I := by
  rw [frequentK, Finset.mem_filter, Finset.mem_powerset]


lemma frequentK_subset_allItems {db : TransactionDB τ α} {s : ℚ} {k : ℕ}
    {I : Finset α} (h : I ∈ frequentK db s k) : I ⊆ allItemsF db :=
  (mem_frequentK.mp h).1

lemma newPairs_toFinset (db : TransactionDB τ α) (s : ℚ) (hn : 0 < db.length)
    {k : ℕ} (hk : 2 ≤ k) {Lk : List (Finset α)}
    (hLk : Lk.toFinset = frequentK db s (k - 1)) :
    (((generate_candidates Lk k).map fun c =>
        (c, (countT db c : ℚ) / db.length)).filter
      fun p => decide (s ≤ p.2)).toFinset
    = (frequentK db s k).image fun I => (I, supportOf db I) := by
  have hmemLk : ∀ {J : Finset α}, J ∈ Lk ↔ J ∈ frequentK db s (k - 1) := by
    intro J
    rw [← List.mem_toFinset, hLk]
  ext q
  simp only [List.mem_toFinset, List.mem_filter, List.mem_map, decide_eq_true_eq,
    Finset.mem_image]
  constructor
  · rintro ⟨⟨c, hc, rfl⟩, hq⟩
    rw [mem_generate_candidates] at hc
    obtain ⟨hpair, hcard, hprune⟩ := hc
    obtain ⟨A, hA, B, hB, rfl⟩ := mem_candidate_pairs_elim hpair
    have hsubAll : A ∪ B ⊆ allItemsF db :=
      Finset.union_subset (frequentK_subset_allItems (hmemLk.mp hA))
        (frequentK_subset_allItems (hmemLk.mp hB))
    exact ⟨A ∪ B, mem_frequentK.mpr ⟨hsubAll, hcard, hq⟩, rfl⟩
  · rintro ⟨I, hI, rfl⟩
    obtain ⟨hsubAll, hcard, hsup⟩ := mem_frequentK.mp hI
    have herase : ∀ x ∈ I, I.erase x ∈ Lk := by
      intro x hx
      refine hmemLk.mpr (mem_frequentK.mpr ⟨(Finset.erase_subset x I).trans hsubAll,
        ?_, le_trans hsup (supportOf_anti db (Finset.erase_subset x I))⟩)
      rw [Finset.card_erase_of_mem hx, hcard]
    have hcard2 : 1 < I.card := by omega
    obtain ⟨x, hx, y, hy, hxy⟩ := Finset.one_lt_card.mp hcard2
    have hIC : I ∈ generate_candidates Lk k := by
      rw [mem_generate_candidates]
      refine ⟨?_, hcard, herase⟩
      have := mem_candidate_pairs_intro (herase x hx) (herase y hy)
        (erase_ne_erase hx hxy)
      rwa [erase_union_erase_of_ne hx hy hxy] at this
    exact ⟨⟨I, hIC, rfl⟩, hsup⟩

lemma apriori_loop_toFinset (db : TransactionDB τ α) (s : ℚ) (hn : 0 < db.length) :
    ∀ fuel k Lk, 2 ≤ k → (allItemsF db).card + 2 ≤ fuel + k →
      Lk.toFinset = frequentK db s (k - 1) →
      (apriori_loop db s fuel k Lk).toFinset =
        ((allItemsF db).powerset.filter fun I => k ≤ I.card ∧ s ≤ supportOf db I).image
          fun I => (I, supportOf db I) := by
  intro fuel
  induction fuel with
  | zero =>
    intro k Lk hk hfuel hLk
    rw [apriori_loop, List.toFinset_nil]
    symm
    rw [Finset.image_eq_empty, Finset.filter_eq_empty_iff]
    intro I hI
    have hIle : I.card ≤ (allItemsF db).card :=
      Finset.card_le_card (Finset.mem_powerset.mp hI)
    rintro ⟨hkI, -⟩
    omega
  | succ fuel ih =>
    intro k Lk hk hfuel hLk
    by_cases hLknil : Lk = []
    · subst hLknil
      have hKempty : frequentK db s (k - 1) = ∅ := by
        rw [← hLk, List.toFinset_nil]
      rw [apriori_loop, if_pos rfl, List.toFinset_nil]
      symm
      rw [Finset.image_eq_empty, Finset.filter_eq_empty_iff]
      intro I hI
      rintro ⟨hkI, hsup⟩
      have hsubAll : I ⊆ allItemsF db := Finset.mem_powerset.mp hI
      obtain ⟨J, hJI, hJcard⟩ := Finset.exists_subset_card_eq
        (show k - 1 ≤ I.card by omega)
      have : J ∈ frequentK db s (k - 1) := mem_frequentK.mpr
        ⟨hJI.trans hsubAll, hJcard, le_trans hsup (supportOf_anti db hJI)⟩
      rw [hKempty] at this
      exact absurd this (Finset.not_mem_empty J)
    · rw [apriori_loop, if_neg hLknil]
      simp only [List.toFinset_append]
      have hnew := newPairs_toFinset db s hn hk hLk
      rw [hnew]
      have hkeys : ((((generate_candidates Lk k).map fun c =>
          (c, (countT db c : ℚ) / db.length)).filter
            fun p => decide (s ≤ p.2)).map Prod.fst).toFinset
          = frequentK db s (k + 1 - 1) := by
        rw [toFinset_map_list, hnew, Finset.image_image]
        have : (Prod.fst ∘ fun I : Finset α => (I, supportOf db I)) = id := rfl
        rw [this, Finset.image_id, Nat.add_sub_cancel]
      rw [ih (k + 1) _ (by omega) (by omega) hkeys]
      rw [← Finset.image_union]
      congr 1
      ext I
      simp only [Finset.mem_union, mem_frequentK, Finset.mem_filter,
        Finset.mem_powerset]
      constructor
      · rintro (⟨h1, h2, h3⟩ | ⟨h1, h2, h3⟩)
        · exact ⟨h1, by omega, h3⟩
        · exact ⟨h1, by omega, h3⟩
      · rintro ⟨h1, h2, h3⟩
        rcases eq_or_lt_of_le h2 with heq | hlt
        · exact Or.inl ⟨h1, heq.symm, h3⟩
        · exact Or.inr ⟨h1, by omega, h3⟩

lemma apriori_L1_toFinset (db : TransactionDB τ α) (s : ℚ) :
    (apriori_L1 db s).toFinset = (frequentK db s 1).image fun I => (I, supportOf db I) := by
  ext q
  simp only [apriori_L1, item_counts, List.mem_toFinset, List.mem_filterMap,
    List.mem_map, Finset.mem_image, mem_frequentK]
  constructor
  · rintro ⟨ic, ⟨i, hi, rfl⟩, hq⟩
    by_cases hs : s ≤ ((countT db {i} : ℚ) / db.length)
    · rw [if_pos hs] at hq
      obtain rfl := Option.some.inj hq
      refine ⟨{i}, ⟨Finset.singleton_subset_iff.mpr ?_, Finset.card_singleton i, hs⟩, rfl⟩
      rw [allItemsF, List.mem_toFinset]
      exact hi
    · rw [if_neg hs] at hq
      exact absurd hq (Option.noConfusion)
  · rintro ⟨I, ⟨hsub, hcard, hsup⟩, rfl⟩
    obtain ⟨i, rfl⟩ := Finset.card_eq_one.mp hcard
    refine ⟨(i, countT db {i}), ⟨i, ?_, rfl⟩, ?_⟩
    · rw [← List.mem_toFinset]
      exact hsub (Finset.mem_singleton_self i)
    · simp only [supportOf] at hsup
      dsimp only
      rw [if_pos hsup]
      rfl

lemma apriori_nil (s : ℚ) : apriori ([] : TransactionDB τ α) s = [] := rfl

lemma apriori_toFinset (db : TransactionDB τ α) (s : ℚ) :
    (apriori db s).toFinset = specResult db s := by
  rcases Nat.eq_zero_or_pos db.length with h0 | h0
  · have hdb : db = [] := List.length_eq_zero.mp h0
    subst hdb
    rw [apriori_nil, List.toFinset_nil, specResult]
    symm
    rw [Finset.image_eq_empty, frequentSets, Finset.filter_eq_empty_iff]
    intro I hI
    rintro ⟨hne, -⟩
    have : I ⊆ allItemsF ([] : TransactionDB τ α) := Finset.mem_powerset.mp hI
    have hempty : allItemsF ([] : TransactionDB τ α) = ∅ := rfl
    rw [hempty, Finset.subset_empty] at this
    exact hne this
  · rw [apriori]
    simp only [List.toFinset_append]
    have hkeys : ((apriori_L1 db s).map Prod.fst).toFinset = frequentK db s (2 - 1) := by
      rw [toFinset_map_list, apriori_L1_toFinset, Finset.image_image]
      have : (Prod.fst ∘ fun I : Finset α => (I, supportOf db I)) = id := rfl
      rw [this, Finset.image_id]
    rw [apriori_L1_toFinset,
      apriori_loop_toFinset db s h0 ((all_items_list db).length + 2) 2 _ (le_refl 2)
        (by rw [length_all_items_list]; omega) hkeys,
      ← Finset.image_union, specResult]
    congr 1
    ext I
    simp only [Finset.mem_union, mem_frequentK, frequentSets, Finset.mem_filter,
      Finset.mem_powerset]
    constructor
    · rintro (⟨h1, h2, h3⟩ | ⟨h1, h2, h3⟩)
      · refine ⟨h1, ?_, h3⟩
        intro hemp
        rw [hemp, Finset.card_empty] at h2
        omega
      · refine ⟨h1, ?_, h3⟩
        intro hemp
        rw [hemp, Finset.card_empty] at h2
        omega
    · rintro ⟨h1, h2, h3⟩
      have hpos : 0 < I.card := Finset.card_pos.mpr (Finset.nonempty_iff_ne_empty.mpr h2)
      rcases Nat.lt_or_ge I.card 2 with hlt | hge
      · exact Or.inl ⟨h1, by omega, h3⟩
      · exact Or.inr ⟨h1, hge, h3⟩

end AprioriSpec

section EclatSpec

lemma eclat_recursive_nil (fuel : ℕ) (pfx : Finset α) (c n : ℕ) :
    eclat_recursive fuel pfx ([] : List (α × Finset τ)) c n = [] := by
  cases fuel <;> rfl

lemma eclat_recursive_concat (fuel : ℕ) (pfx : Finset α) (L : List (α × Finset τ))
    (a : α) (t : Finset τ) (c n : ℕ) :
    eclat_recursive (fuel + 1) pfx (L ++ [(a, t)]) c n =
      if c ≤ t.card then
        (pfx ∪ {a}, (t.card : ℚ) / n) ::
          eclat_recursive fuel (pfx ∪ {a})
            (L.filterMap fun q =>
              if c ≤ (t ∩ q.2).card then some (q.1, t ∩ q.2) else none) c n ++
            eclat_recursive fuel pfx L c n
      else eclat_recursive fuel pfx L c n := by
  rw [eclat_recursive]
  simp only [List.getLast?_concat, List.dropLast_concat]

lemma union_singleton_eq_insert (pfx : Finset α) (a : α) :
    pfx ∪ {a} = insert a pfx := by
  ext z
  simp [Finset.mem_union, Finset.mem_insert, or_comm]

lemma eclat_recursive_mem {db : TransactionDB τ α} (hnd : keysNodup db) (c n : ℕ) :
    ∀ (fuel : ℕ) (L : List (α × Finset τ)) (pfx : Finset α),
      L.length ≤ fuel →
      (∀ q ∈ L, q.2 = tidsOf db (insert q.1 pfx)) →
      ∀ (I : Finset α) (qv : ℚ),
        ((I, qv) ∈ eclat_recursive fuel pfx L c n ↔
          ∃ S : Finset α, S.Nonempty ∧ S ⊆ (L.map Prod.fst).toFinset ∧
            I = pfx ∪ S ∧ c ≤ (tidsOf db I).card ∧
            qv = ((tidsOf db I).card : ℚ) / n) := by
  intro fuel
  induction fuel with
  | zero =>
    intro L pfx hlen hinv I qv
    have hL : L = [] := List.length_eq_zero.mp (Nat.le_zero.mp hlen)
    subst hL
    rw [eclat_recursive_nil]
    simp only [List.not_mem_nil, List.map_nil, List.toFinset_nil, false_iff]
    rintro ⟨S, hSne, hSsub, -, -, -⟩
    rw [Finset.subset_empty] at hSsub
    exact Finset.not_nonempty_empty (hSsub ▸ hSne)
  | succ fuel ih =>
    intro L pfx hlen hinv I qv
    rcases List.eq_nil_or_concat L with rfl | ⟨L', at_, hL⟩
    · rw [eclat_recursive_nil]
      simp only [List.not_mem_nil, List.map_nil, List.toFinset_nil, false_iff]
      rintro ⟨S, hSne, hSsub, -, -, -⟩
      rw [Finset.subset_empty] at hSsub
      exact Finset.not_nonempty_empty (hSsub ▸ hSne)
    · rw [List.concat_eq_append] at hL
      subst hL
      obtain ⟨a, t⟩ := at_
      have hT : t = tidsOf db (insert a pfx) := by
        have := hinv (a, t) (List.mem_append.mpr (Or.inr (List.mem_cons_self _ _)))
        exact this
      have hlen' : L'.length ≤ fuel := by
        rw [List.length_append, List.length_singleton] at hlen
        omega
      have hinv' : ∀ q ∈ L', q.2 = tidsOf db (insert q.1 pfx) := fun q hq =>
        hinv q (List.mem_append.mpr (Or.inl hq))
      have hkeysL : ((L' ++ [(a, t)]).map Prod.fst).toFinset =
          insert a (L'.map Prod.fst).toFinset := by
        ext z
        simp only [List.mem_toFinset, List.mem_map, List.mem_append,
          List.mem_singleton, Finset.mem_insert]
        constructor
        · rintro ⟨q, hq | rfl, rfl⟩
          · exact Or.inr ⟨q, hq, rfl⟩
          · exact Or.inl rfl
        · rintro (rfl | ⟨q, hq, rfl⟩)
          · exact ⟨(z, t), Or.inr rfl, rfl⟩
          · exact ⟨q, Or.inl hq, rfl⟩
      -- The pruned working list for the recursive branch.
      set newL := L'.filterMap fun q =>
        if c ≤ (t ∩ q.2).card then some (q.1, t ∩ q.2) else none with hnewL
      have hlen'' : newL.length ≤ fuel :=
        le_trans (List.length_filterMap_le _ _) hlen'
      have hmem_newL : ∀ q' ∈ newL, ∃ q ∈ L', q' = (q.1, t ∩ q.2) ∧
          c ≤ (t ∩ q.2).card := by
        intro q' hq'
        rw [hnewL, List.mem_filterMap] at hq'
        obtain ⟨q, hq, hq'eq⟩ := hq'
        by_cases hcard : c ≤ (t ∩ q.2).card
        · rw [if_pos hcard] at hq'eq
          exact ⟨q, hq, (Option.some.inj hq'eq).symm, hcard⟩
        · rw [if_neg hcard] at hq'eq
          exact absurd hq'eq Option.noConfusion
      have hinter : ∀ q ∈ L', t ∩ q.2 = tidsOf db (insert q.1 (pfx ∪ {a})) := by
        intro q hq
        rw [hT, hinv' q hq, tidsOf_inter hnd]
        congr 1
        ext z
        simp only [Finset.mem_union, Finset.mem_insert, union_singleton_eq_insert]
        tauto
      have hinvNew : ∀ q' ∈ newL, q'.2 = tidsOf db (insert q'.1 (pfx ∪ {a})) := by
        intro q' hq'
        obtain ⟨q, hq, rfl, -⟩ := hmem_newL q' hq'
        exact hinter q hq
      have hkeys_newL : ∀ x : α, x ∈ (newL.map Prod.fst).toFinset ↔
          ∃ q ∈ L', q.1 = x ∧ c ≤ (t ∩ q.2).card := by
        intro x
        rw [List.mem_toFinset, List.mem_map]
        constructor
        · rintro ⟨q', hq', rfl⟩
          obtain ⟨q, hq, rfl, hcard⟩ := hmem_newL q' hq'
          exact ⟨q, hq, rfl, hcard⟩
        · rintro ⟨q, hq, rfl, hcard⟩
          refine ⟨(q.1, t ∩ q.2), ?_, rfl⟩
          rw [hnewL, List.mem_filterMap]
          exact ⟨q, hq, by rw [if_pos hcard]⟩
      rw [eclat_recursive_concat, hkeysL]
      by_cases hguard : c ≤ t.card
      · rw [if_pos hguard, ← hnewL]
        simp only [List.mem_cons, List.mem_append]
        rw [ih newL (pfx ∪ {a}) hlen'' hinvNew I qv,
          ih L' pfx hlen' hinv' I qv]
        constructor
        · rintro ((hhead | ⟨S'', hS''ne, hS''sub, rfl, hccard, hqv⟩) |
            ⟨S, hSne, hSsub, rfl, hccard, hqv⟩)
          · -- the freshly recorded itemset
            obtain ⟨rfl, rfl⟩ := Prod.mk.inj hhead
            refine ⟨{a}, Finset.singleton_nonempty a,
              Finset.singleton_subset_iff.mpr (Finset.mem_insert_self a _), rfl, ?_, ?_⟩
            · rw [union_singleton_eq_insert, ← hT]
              exact hguard
            · rw [union_singleton_eq_insert, ← hT]
          · -- from the recursive branch: add `a` to the reported extension
            refine ⟨insert a S'', Finset.insert_nonempty a S'', ?_, ?_, hccard, hqv⟩
            · intro z hz
              rcases Finset.mem_insert.mp hz with rfl | hz
              · exact Finset.mem_insert_self _ _
              · have hzk := hS''sub hz
                rcases (hkeys_newL z).mp hzk with ⟨q, hq, rfl, -⟩
                exact Finset.mem_insert_of_mem
                  (List.mem_toFinset.mpr (List.mem_map_of_mem Prod.fst hq))
            · ext z
              simp only [Finset.mem_union, Finset.mem_singleton, Finset.mem_insert]
              tauto
          · -- from the continued loop on the remaining pairs
            exact ⟨S, hSne, fun z hz => Finset.mem_insert_of_mem (hSsub hz), rfl,
              hccard, hqv⟩
        · rintro ⟨S, hSne, hSsub, rfl, hccard, hqv⟩
          by_cases haS : a ∈ S
          · by_cases hS' : S.erase a = ∅
            · -- S = {a}: this is exactly the recorded head pair
              have hSa : S = {a} := by
                ext z
                simp only [Finset.mem_singleton]
                constructor
                · intro hz
                  by_contra hne
                  have hze : z ∈ S.erase a := Finset.mem_erase.mpr ⟨hne, hz⟩
                  rw [hS'] at hze
                  exact Finset.not_mem_empty z hze
                · rintro rfl
                  exact haS
              subst hSa
              left
              left
              have htid : tidsOf db (pfx ∪ {a}) = t := by
                rw [union_singleton_eq_insert, ← hT]
              rw [Prod.mk.injEq]
              exact ⟨rfl, by rw [hqv, htid]⟩
            · -- a together with a non-empty remainder: the recursive branch
              left; right
              refine ⟨S.erase a, Finset.nonempty_iff_ne_empty.mpr hS', ?_, ?_, hccard, hqv⟩
              · intro o ho
                obtain ⟨hoa, hoS⟩ := Finset.mem_erase.mp ho
                have hoK : o ∈ insert a (L'.map Prod.fst).toFinset := hSsub hoS
                have hoL' : o ∈ (L'.map Prod.fst).toFinset := by
                  rcases Finset.mem_insert.mp hoK with rfl | h
                  · exact absurd rfl hoa
                  · exact h
                rcases List.mem_map.mp (List.mem_toFinset.mp hoL') with ⟨q, hq, rfl⟩
                refine (hkeys_newL q.1).mpr ⟨q, hq, rfl, ?_⟩
                -- pruning keeps q: its intersected TID-set contains that of I
                have hsub2 : insert q.1 (pfx ∪ {a}) ⊆ pfx ∪ S := by
                  intro z hz
                  rcases Finset.mem_insert.mp hz with rfl | hz
                  · exact Finset.mem_union_right _ hoS
                  · rcases Finset.mem_union.mp hz with hz | hz
                    · exact Finset.mem_union_left _ hz
                    · exact Finset.mem_union_right _
                        (Finset.mem_singleton.mp hz ▸ haS)
                have := Finset.card_le_card (tidsOf_anti db hsub2)
                rw [← hinter q hq] at this
                omega
              · conv_lhs => rw [← Finset.insert_erase haS]
                ext z
                simp only [Finset.mem_union, Finset.mem_insert, Finset.mem_singleton]
                tauto
          · -- a not involved: the continued loop
            right
            refine ⟨S, hSne, ?_, rfl, hccard, hqv⟩
            intro z hz
            rcases Finset.mem_insert.mp (hSsub hz) with rfl | h
            · exact absurd hz haS
            · exact h
      · rw [if_neg hguard]
        rw [ih L' pfx hlen' hinv' I qv]
        constructor
        · rintro ⟨S, hSne, hSsub, rfl, hccard, hqv⟩
          exact ⟨S, hSne, fun z hz => Finset.mem_insert_of_mem (hSsub hz), rfl,
            hccard, hqv⟩
        · rintro ⟨S, hSne, hSsub, rfl, hccard, hqv⟩
          have haS : a ∉ S := by
            intro haS
            have hsub2 : insert a pfx ⊆ pfx ∪ S := by
              intro z hz
              rcases Finset.mem_insert.mp hz with rfl | hz
              · exact Finset.mem_union_right _ haS
              · exact Finset.mem_union_left _ hz
            have := Finset.card_le_card (tidsOf_anti db hsub2)
            rw [← hT] at this
            omega
          refine ⟨S, hSne, ?_, rfl, hccard, hqv⟩
          intro z hz
          rcases Finset.mem_insert.mp (hSsub hz) with rfl | h
          · exact absurd hz haS
          · exact h

lemma eclat_toFinset {db : TransactionDB τ α} (hnd : keysNodup db) (s : ℚ) :
    (eclat db s).toFinset = specResultAbs db (min_sup_count s db.length) := by
  ext q
  obtain ⟨I, qv⟩ := q
  rw [List.mem_toFinset, eclat]
  have hroot : ∀ p ∈ build_vertical_representation db,
      p.2 = tidsOf db (insert p.1 (∅ : Finset α)) := by
    intro p hp
    rw [build_vertical_representation, List.mem_map] at hp
    obtain ⟨i, hi, rfl⟩ := hp
    have h1 : insert i (∅ : Finset α) = {i} := by simp
    show tidsOf db {i} = tidsOf db (insert i ∅)
    rw [h1]
  have hkeys : ((build_vertical_representation db).map Prod.fst).toFinset =
      allItemsF db := by
    rw [build_vertical_representation, List.map_map]
    have : (Prod.fst ∘ fun i : α => (i, tidsOf db {i})) = id := rfl
    rw [this, List.map_id]
    rfl
  rw [eclat_recursive_mem hnd (min_sup_count s db.length) db.length
    (build_vertical_representation db).length (build_vertical_representation db)
    ∅ (le_refl _) hroot I qv, hkeys]
  rw [specResultAbs, Finset.mem_image]
  constructor
  · rintro ⟨S, hSne, hSsub, rfl, hccard, hqv⟩
    rw [Finset.empty_union] at hccard hqv ⊢
    refine ⟨S, ?_, ?_⟩
    · rw [frequentSetsAbs, Finset.mem_filter, Finset.mem_powerset]
      rw [card_tidsOf hnd] at hccard
      exact ⟨hSsub, Finset.nonempty_iff_ne_empty.mp hSne, hccard⟩
    · rw [Prod.mk.injEq]
      refine ⟨rfl, ?_⟩
      rw [hqv, card_tidsOf hnd, supportOf]
  · rintro ⟨J, hJ, hJeq⟩
    rw [frequentSetsAbs, Finset.mem_filter, Finset.mem_powerset] at hJ
    obtain ⟨hJsub, hJne, hJc⟩ := hJ
    obtain ⟨rfl, rfl⟩ := Prod.mk.inj hJeq
    refine ⟨J, Finset.nonempty_iff_ne_empty.mpr hJne, hJsub,
      (Finset.empty_union J).symm, ?_, ?_⟩
    · rw [card_tidsOf hnd]
      exact hJc
    · rw [card_tidsOf hnd, supportOf]

end EclatSpec

section ThresholdLemmas

lemma apriori_nonpos_toFinset (db : TransactionDB τ α) {s : ℚ} (hs : s ≤ 0) :
    (apriori db s).toFinset = (apriori db 0).toFinset := by
  rw [apriori_toFinset, apriori_toFinset, specResult, specResult]
  congr 1
  rw [frequentSets, frequentSets]
  apply Finset.filter_congr
  intro I hI
  have hnn := supportOf_nonneg db I
  exact and_congr_right fun _ => ⟨fun _ => hnn, fun _ => le_trans hs hnn⟩

lemma min_sup_count_nonpos {s : ℚ} (hs : s ≤ 0) (n : ℕ) :
    min_sup_count s n = min_sup_count 0 n := by
  rw [min_sup_count, min_sup_count]
  have h1 : ⌈s * (n : ℚ)⌉ ≤ 0 := by
    rw [Int.ceil_le]
    push_cast
    calc s * (n : ℚ) ≤ 0 * (n : ℚ) :=
          mul_le_mul_of_nonneg_right hs (Nat.cast_nonneg n)
      _ = 0 := by ring
  have h2 : ⌈(0 : ℚ) * (n : ℚ)⌉ = 0 := by
    rw [zero_mul]
    exact Int.ceil_zero
  rw [h2, max_eq_left (by omega : ⌈s * (n : ℚ)⌉ ≤ (1 : ℤ)),
    max_eq_left (by omega : (0 : ℤ) ≤ (1 : ℤ))]

lemma eclat_nonpos (db : TransactionDB τ α) {s : ℚ} (hs : s ≤ 0) :
    eclat db s = eclat db 0 := by
  unfold eclat
  rw [min_sup_count_nonpos hs]

lemma apriori_gt_one (db : TransactionDB τ α) {t : ℚ} (ht : 1 < t) :
    apriori db t = [] := by
  have h : (apriori db t).toFinset = (∅ : Finset (Finset α × ℚ)) := by
    rw [apriori_toFinset, specResult, Finset.image_eq_empty, frequentSets,
      Finset.filter_eq_empty_iff]
    rintro I hI ⟨hne, hsup⟩
    exact absurd hsup (not_le.mpr (lt_of_le_of_lt (supportOf_le_one db I) ht))
  rwa [List.toFinset_eq_empty_iff] at h

lemma eclat_recursive_all_small {c n : ℕ} :
    ∀ (fuel : ℕ) (pfx : Finset α) (L : List (α × Finset τ)),
      (∀ q ∈ L, q.2.card < c) → eclat_recursive fuel pfx L c n = [] := by
  intro fuel
  induction fuel with
  | zero => intro pfx L h; rfl
  | succ fuel ih =>
    intro pfx L h
    rcases List.eq_nil_or_concat L with rfl | ⟨L', at_, hL⟩
    · exact eclat_recursive_nil _ _ _ _
    · rw [List.concat_eq_append] at hL
      subst hL
      obtain ⟨a, t⟩ := at_
      rw [eclat_recursive_concat]
      have hsmall : t.card < c :=
        h (a, t) (List.mem_append.mpr (Or.inr (List.mem_cons_self _ _)))
      rw [if_neg (by omega)]
      exact ih pfx L' fun q hq => h q (List.mem_append.mpr (Or.inl hq))

lemma eclat_gt_one {db : TransactionDB τ α} {t : ℚ} (ht : 1 < t) :
    eclat db t = [] := by
  rcases Nat.eq_zero_or_pos db.length with h0 | h0
  · have hdb : db = [] := List.length_eq_zero.mp h0
    subst hdb
    rfl
  · rw [eclat]
    apply eclat_recursive_all_small
    intro q hq
    rw [build_vertical_representation, List.mem_map] at hq
    obtain ⟨i, hi, rfl⟩ := hq
    have hle : (tidsOf db {i}).card ≤ db.length := by
      calc (tidsOf db {i}).card
          ≤ ((db.filter fun p => decide ({i} ⊆ p.2)).map Prod.fst).length :=
            List.toFinset_card_le _
        _ = (db.filter fun p => decide ({i} ⊆ p.2)).length := List.length_map _ _
        _ ≤ db.length := List.length_filter_le _ _
    have hlt : db.length < min_sup_count t db.length := by
      rw [min_sup_count]
      have h1 : (db.length : ℚ) < t * db.length := by
        have := mul_lt_mul_of_pos_right ht
          (show (0 : ℚ) < db.length by exact_mod_cast h0)
        rwa [one_mul] at this
      have h2 : (db.length : ℤ) < ⌈t * (db.length : ℚ)⌉ := by
        rw [Int.lt_ceil]
        push_cast
        exact h1
      exact Int.lt_toNat.mpr (lt_of_lt_of_le h2 (le_max_right _ _))
    show (tidsOf db {i}).card < min_sup_count t db.length
    omega

lemma frequentSets_eq_abs {db : TransactionDB τ α} {s : ℚ} (hs : 0 < s) :
    frequentSets db s = frequentSetsAbs db (min_sup_count s db.length) := by
  rw [frequentSets, frequentSetsAbs]
  apply Finset.filter_congr
  intro I hI
  apply and_congr_right
  intro hne
  rcases Nat.eq_zero_or_pos db.length with h0 | h0
  · have hdb : db = [] := List.length_eq_zero.mp h0
    subst hdb
    have hIemp : I = ∅ := by
      have hsub := Finset.mem_powerset.mp hI
      have : allItemsF ([] : TransactionDB τ α) = ∅ := rfl
      rw [this, Finset.subset_empty] at hsub
      exact hsub
    exact absurd hIemp hne
  · have hnQ : (0 : ℚ) < db.length := by exact_mod_cast h0
    have hcp : 0 < ⌈s * (db.length : ℚ)⌉ :=
      Int.ceil_pos.mpr (mul_pos hs hnQ)
    have hmax : max 1 ⌈s * (db.length : ℚ)⌉ = ⌈s * (db.length : ℚ)⌉ :=
      max_eq_right (by omega)
    rw [supportOf, le_div_iff hnQ, min_sup_count, hmax, Int.toNat_le, Int.ceil_le]
    push_cast
    exact Iff.rfl

lemma apriori_keys_toFinset (db : TransactionDB τ α) (s : ℚ) :
    ((apriori db s).map Prod.fst).toFinset = frequentSets db s := by
  rw [toFinset_map_list, apriori_toFinset, specResult, Finset.image_image]
  have : (Prod.fst ∘ fun I : Finset α => (I, supportOf db I)) = id := rfl
  rw [this, Finset.image_id]

lemma eclat_keys_toFinset {db : TransactionDB τ α} (hnd : keysNodup db) (s : ℚ) :
    ((eclat db s).map Prod.fst).toFinset =
      frequentSetsAbs db (min_sup_count s db.length) := by
  rw [toFinset_map_list, eclat_toFinset hnd, specResultAbs, Finset.image_image]
  have : (Prod.fst ∘ fun I : Finset α => (I, supportOf db I)) = id := rfl
  rw [this, Finset.image_id]

lemma min_sup_count_mono {s s' : ℚ} (h : s ≤ s') (n : ℕ) :
    min_sup_count s n ≤ min_sup_count s' n := by
  rw [min_sup_count, min_sup_count]
  have h1 : ⌈s * (n : ℚ)⌉ ≤ ⌈s' * (n : ℚ)⌉ :=
    Int.ceil_le_ceil (mul_le_mul_of_nonneg_right h (Nat.cast_nonneg n))
  exact Int.toNat_le_toNat (max_le_max (le_refl 1) h1)

end ThresholdLemmas

/-- C1 counterexample: at `min_support = 0` (which lies in `[0, 1]`), the
horizontal engine reports the itemset `{20, 30}` with support `0` (a generated
candidate occurring in no transaction of `db2`), while the vertical engine's
absolute threshold `max(1, ceil(0 * 2)) = 1` excludes it, so the two result
maps differ as sets of pairs. -/
theorem c1_counterexample :
    (0 : ℚ) ≤ 0 ∧ (0 : ℚ) ≤ 1 ∧
      (apriori db2 0).toFinset ≠ (eclat db2 0).toFinset := by
  refine ⟨le_refl 0, by norm_num, fun h => ?_⟩
  have h1 : (({20, 30} : Finset ℕ), (0 : ℚ)) ∈ (apriori db2 0).toFinset := by decide
  rw [h] at h1
  have h2 : (({20, 30} : Finset ℕ), (0 : ℚ)) ∉ (eclat db2 0).toFinset := by decide
  exact h2 h1

/-- C1 (amended): for every TransactionDatabase and every min_support
threshold `s` with `0 < s ≤ 1`, the result maps of the horizontal engine
`apriori` and the vertical engine `eclat` are equal as sets of
(itemset, support) pairs (supports are modelled exactly, so "equal up to
floating-point tolerance" is equality).  At `s = 0` the engines may differ:
`apriori` additionally reports candidate itemsets with support `0`. -/
theorem c1_engine_equivalence (db : TransactionDB τ α) (hnd : keysNodup db)
    (s : ℚ) (hs : 0 < s) (hs1 : s ≤ 1) :
    (apriori db s).toFinset = (eclat db s).toFinset := by
  rw [apriori_toFinset, eclat_toFinset hnd, specResult, specResultAbs,
    frequentSets_eq_abs hs]

/-- C1 witness: the two engines agree on `db2` at `min_support = 1/2`. -/
theorem c1_witness : (apriori db2 (1/2)).toFinset = (eclat db2 (1/2)).toFinset :=
  c1_engine_equivalence db2 (by decide) (1/2) (by norm_num) (by norm_num)

/-- C2: for every database with at least one transaction and distinct
transaction ids, every (itemset, support) pair recorded by either engine has
support equal to the number of transactions whose item set is a superset of
the itemset, divided by the number of transactions. -/
theorem c2_support_correct (db : TransactionDB τ α) (hn : 0 < db.length)
    (hnd : keysNodup db) (s : ℚ) (I : Finset α) (q : ℚ) :
    ((I, q) ∈ apriori db s → q = (countT db I : ℚ) / db.length) ∧
    ((I, q) ∈ eclat db s → q = (countT db I : ℚ) / db.length) := by
  constructor
  · intro h
    have h' : (I, q) ∈ (apriori db s).toFinset := List.mem_toFinset.mpr h
    rw [apriori_toFinset, specResult, Finset.mem_image] at h'
    obtain ⟨J, hJ, hJeq⟩ := h'
    obtain ⟨rfl, rfl⟩ := Prod.mk.inj hJeq
    rfl
  · intro h
    have h' : (I, q) ∈ (eclat db s).toFinset := List.mem_toFinset.mpr h
    rw [eclat_toFinset hnd, specResultAbs, Finset.mem_image] at h'
    obtain ⟨J, hJ, hJeq⟩ := h'
    obtain ⟨rfl, rfl⟩ := Prod.mk.inj hJeq
    rfl

/-- C2 witness: the support `1` recorded for `{10}` on `db2` equals its
recomputed support `2/2`. -/
theorem c2_witness : (1 : ℚ) = (countT db2 {10} : ℚ) / db2.length :=
  (c2_support_correct db2 (by decide) (by decide) (1/2) {10} 1).1 (by decide)

/-- C3: in the result map of either engine, every itemset of size at least 2
has each of its subsets of one element fewer also present, with support at
least as large (downward closure). -/
theorem c3_downward_closure (db : TransactionDB τ α) (hnd : keysNodup db) (s : ℚ)
    (I : Finset α) (q : ℚ) (J : Finset α) (hJI : J ⊆ I) (hcard : J.card + 1 = I.card) :
    ((I, q) ∈ apriori db s → 2 ≤ I.card → ∃ q', (J, q') ∈ apriori db s ∧ q ≤ q') ∧
    ((I, q) ∈ eclat db s → 2 ≤ I.card → ∃ q', (J, q') ∈ eclat db s ∧ q ≤ q') := by
  constructor
  · intro h h2
    have h' : (I, q) ∈ (apriori db s).toFinset := List.mem_toFinset.mpr h
    rw [apriori_toFinset, specResult, Finset.mem_image] at h'
    obtain ⟨K, hK, hKeq⟩ := h'
    obtain ⟨rfl, rfl⟩ := Prod.mk.inj hKeq
    rw [frequentSets, Finset.mem_filter, Finset.mem_powerset] at hK
    obtain ⟨hsub, hne, hsup⟩ := hK
    refine ⟨supportOf db J, ?_, supportOf_anti db hJI⟩
    rw [← List.mem_toFinset, apriori_toFinset, specResult, Finset.mem_image]
    refine ⟨J, ?_, rfl⟩
    rw [frequentSets, Finset.mem_filter, Finset.mem_powerset]
    refine ⟨hJI.trans hsub, ?_, le_trans hsup (supportOf_anti db hJI)⟩
    intro hJemp
    rw [hJemp, Finset.card_empty] at hcard
    omega
  · intro h h2
    have h' : (I, q) ∈ (eclat db s).toFinset := List.mem_toFinset.mpr h
    rw [eclat_toFinset hnd, specResultAbs, Finset.mem_image] at h'
    obtain ⟨K, hK, hKeq⟩ := h'
    obtain ⟨rfl, rfl⟩ := Prod.mk.inj hKeq
    rw [frequentSetsAbs, Finset.mem_filter, Finset.mem_powerset] at hK
    obtain ⟨hsub, hne, hsup⟩ := hK
    refine ⟨supportOf db J, ?_, supportOf_anti db hJI⟩
    rw [← List.mem_toFinset, eclat_toFinset hnd, specResultAbs, Finset.mem_image]
    refine ⟨J, ?_, rfl⟩
    rw [frequentSetsAbs, Finset.mem_filter, Finset.mem_powerset]
    refine ⟨hJI.trans hsub, ?_, le_trans hsup (countT_anti db hJI)⟩
    intro hJemp
    rw [hJemp, Finset.card_empty] at hcard
    omega

/-- C3 witness: downward closure instantiated on `db2` at `min_support = 1/2`
for the frequent pair `{10, 20}` and its subset `{10}`, in both engines. -/
theorem c3_witness :
    (∃ q', (({10} : Finset ℕ), q') ∈ apriori db2 (1/2) ∧ (1/2 : ℚ) ≤ q') ∧
    (∃ q', (({10} : Finset ℕ), q') ∈ eclat db2 (1/2) ∧ (1/2 : ℚ) ≤ q') := by
  have h := c3_downward_closure db2 (by decide) (1/2) {10, 20} (1/2) {10}
    (by decide) (by decide)
  exact ⟨h.1 (by decide) (by decide), h.2 (by decide) (by decide)⟩

/-- C4 counterexample: the threshold `-1` lies outside `[0, 1]`, yet
`apriori` performs the full computation and returns a non-empty
frequent-itemset map — no validation is reported and output IS produced. -/
theorem c4_counterexample :
    ¬ ((0 : ℚ) ≤ -1) ∧ apriori db1 (-1) = [({10}, 1)] := by
  constructor
  · norm_num
  · decide

/-- C4 (amended): no threshold validation is performed.  A call with an
out-of-range threshold runs to completion and returns a normally computed
result: a negative `min_support` behaves like `0` (for `apriori` the result
map is equal as a set of pairs; for `eclat` it is the identical list), a
`min_support` above `1` yields an empty result map from both engines, and a
negative `min_confidence` behaves like `0` for the rule generator on maps
with non-negative supports. -/
theorem c4_no_validation (db : TransactionDB τ α) (s t : ℚ)
    (hs : s < 0) (ht : 1 < t) (m : FrequentMap α) (c : ℚ) (hc : c < 0)
    (hm : ∀ p ∈ m, 0 ≤ p.2) :
    (apriori db s).toFinset = (apriori db 0).toFinset ∧
    eclat db s = eclat db 0 ∧
    apriori db t = [] ∧ eclat db t = [] ∧
    generate_association_rules m c = generate_association_rules m 0 :=
  ⟨apriori_nonpos_toFinset db hs.le, eclat_nonpos db hs.le, apriori_gt_one db ht,
    eclat_gt_one ht, gar_neg_eq_zero m hc.le hm⟩

/-- C4 witness: the amended behaviour instantiated on `db2` with thresholds
`-1` and `2`, and on the scenario map with `min_confidence = -1`. -/
theorem c4_witness :
    (apriori db2 (-1)).toFinset = (apriori db2 0).toFinset ∧
    eclat db2 (-1) = eclat db2 0 ∧
    apriori db2 2 = [] ∧ eclat db2 2 = [] ∧
    generate_association_rules mScenario (-1) =
      generate_association_rules mScenario 0 :=
  c4_no_validation db2 (-1) 2 (by norm_num) (by norm_num) mScenario (-1)
    (by norm_num) (by decide)

/-- C6: on a database with zero transactions both engines return the empty
result map without any division by zero (the model is total), and the rule
generator applied to the empty result returns the empty rule list. -/
theorem c6_empty_database (s c : ℚ) :
    apriori ([] : TransactionDB τ α) s = [] ∧
    eclat ([] : TransactionDB τ α) s = [] ∧
    generate_association_rules ([] : FrequentMap α) c = [] :=
  ⟨rfl, rfl, rfl⟩

/-- C7: raising `min_support` never increases the number of itemsets in the
result map (the number of distinct keys) for either engine, and raising
`min_confidence` never increases the number of rules returned. -/
theorem c7_threshold_monotone (db : TransactionDB τ α) (hnd : keysNodup db)
    (s s' : ℚ) (hss : s ≤ s') (m : FrequentMap α) (c c' : ℚ) (hcc : c ≤ c') :
    ((apriori db s').map Prod.fst).toFinset.card ≤
      ((apriori db s).map Prod.fst).toFinset.card ∧
    ((eclat db s').map Prod.fst).toFinset.card ≤
      ((eclat db s).map Prod.fst).toFinset.card ∧
    (generate_association_rules m c').length ≤
      (generate_association_rules m c).length := by
  refine ⟨?_, ?_, (gar_anti m hcc).length_le⟩
  · rw [apriori_keys_toFinset, apriori_keys_toFinset]
    apply Finset.card_le_card
    rw [frequentSets, frequentSets]
    apply Finset.monotone_filter_right
    rintro I ⟨hne, hsup⟩
    exact ⟨hne, le_trans hss hsup⟩
  · rw [eclat_keys_toFinset hnd, eclat_keys_toFinset hnd]
    apply Finset.card_le_card
    rw [frequentSetsAbs, frequentSetsAbs]
    apply Finset.monotone_filter_right
    rintro I ⟨hne, hsup⟩
    exact ⟨hne, le_trans (min_sup_count_mono hss db.length) hsup⟩

/-- C7 witness: monotonicity instantiated on `db2` (thresholds `1/4 ≤ 1/2`)
and the scenario map (confidences `0 ≤ 3/5`). -/
theorem c7_witness :
    ((apriori db2 (1/2)).map Prod.fst).toFinset.card ≤
      ((apriori db2 (1/4)).map Prod.fst).toFinset.card ∧
    ((eclat db2 (1/2)).map Prod.fst).toFinset.card ≤
      ((eclat db2 (1/4)).map Prod.fst).toFinset.card ∧
    (generate_association_rules mScenario (3/5)).length ≤
      (generate_association_rules mScenario 0).length :=
  c7_threshold_monotone db2 (by decide) (1/4) (1/2) (by norm_num) mScenario 0 (3/5)
    (by norm_num)

/-- C8: the result map of each engine is a function of the database and the
threshold alone — the clock readings that produce the separately reported
elapsed time do not influence it — and the rule generator is a function of
its inputs, so repeated invocation with identical inputs yields identical
results. -/
theorem c8_deterministic (db : TransactionDB τ α) (s t1 t2 t1' t2' : ℚ)
    (m : FrequentMap α) (c : ℚ) :
    (apriori_timed db s t1 t2).1 = (apriori_timed db s t1' t2').1 ∧
    (eclat_timed db s t1 t2).1 = (eclat_timed db s t1' t2').1 ∧
    generate_association_rules m c = generate_association_rules m c :=
  ⟨rfl, rfl, rfl⟩

end AssociationMining
